import Mathlib

/-!
Verification of the logo-extraction pipeline.

The development shallowly embeds the two scripts
`extract-logo-advanced.py` and `extract-logo-with-text.py`.
Numpy float arithmetic is modelled over exact rationals/reals; `int()` and
`astype(uint8)` truncate non-negative values toward zero, which is floor.
Boolean numpy arrays become `BMask` (a size plus a total cell function; cells
outside the grid read as `false`, matching scipy morphology with
`border_value=0`).  Fallible extraction steps return `Option`.
-/

namespace Logo

/-- RGB color of a pixel, 8-bit channels stored as naturals. -/
structure Color where
  r : ℕ
  g : ℕ
  b : ℕ

/-- Reference background color, pure white `(255, 255, 255)` (line 14 of
`extract-logo-advanced.py`). -/
def white : Color := ⟨255, 255, 255⟩

/-- Squared Euclidean color distance between two RGB colors.  The script
computes `np.sqrt(np.sum((rgb - white)**2))`; we keep the exact square. -/
def colorDistSq (c d : Color) : ℤ :=
  ((c.r : ℤ) - d.r) ^ 2 + ((c.g : ℤ) - d.g) ^ 2 + ((c.b : ℤ) - d.b) ^ 2

/-- Foreground classifier of `extract-logo-advanced.py` line 20:
`mask = color_distance > threshold`.  Since both the distance and the
threshold are non-negative, `sqrt(dSq) > t` is encoded as `dSq > t^2`;
the equivalence with the square root form is proved in the C1 theorem. -/
def fgMask (t : ℚ) (c : Color) : Bool :=
  decide (t ^ 2 < ((colorDistSq c white : ℤ) : ℚ))

/-- Vertical region selector of `extract-logo-advanced.py` lines 39 and 40:
`int(ymin + (ymax - ymin) * f)` with `f = 0.60` resp. `0.75`; the fraction is
kept as a parameter.  Python `int()` truncates the non-negative float, i.e.
takes the floor. -/
def graphic_only_y (ymin ymax : ℕ) (f : ℚ) : ℤ :=
  ⌊(ymin : ℚ) + ((ymax : ℚ) - (ymin : ℚ)) * f⌋

/-- Vertical cutoff of `extract-logo-with-text.py` line 26:
`int(max_y * 0.75)` — note it scales `max_y` itself, not `min_y + 0.75 *
(max_y - min_y)`. -/
def graphic_text_max_y (max_y : ℕ) : ℤ :=
  ⌊(max_y : ℚ) * (3 / 4)⌋

/-- RGBA pixel with 8-bit channels stored as naturals. -/
structure Pix where
  r : ℕ
  g : ℕ
  b : ℕ
  a : ℕ

/-- Light-pixel test of `extract-logo-with-text.py` line 38:
`np.all(rgb > 150)`. -/
def light_pixels (p : Pix) : Bool :=
  decide (150 < p.r) && decide (150 < p.g) && decide (150 < p.b)

/-- Grayish-pixel test of `extract-logo-with-text.py` line 42:
`np.mean(rgb) > 180`, computed exactly over the rationals. -/
def grayish (p : Pix) : Bool :=
  decide ((180 : ℚ) < ((p.r : ℚ) + (p.g : ℚ) + (p.b : ℚ)) / 3)

/-- Alpha channel of `extract-logo-with-text.py` lines 35-43:
start at 255, zero out light pixels, then zero out grayish pixels. -/
def alphaWT (p : Pix) : ℕ :=
  if grayish p then 0 else if light_pixels p then 0 else 255

/-- The implicit content mask of `extract-logo-with-text.py`: a pixel is
content when it is neither light nor grayish. -/
def wtMask (p : Pix) : Bool := !(light_pixels p || grayish p)

end Logo

namespace Logo

/-- Boolean mask over an `H × W` grid.  The cell function is total over ℤ²;
only in-grid values are meaningful and all reads go through `BMask.get`,
which returns `false` outside the grid (scipy `border_value=0`). -/
structure BMask where
  H : ℕ
  W : ℕ
  cell : ℤ → ℤ → Bool

/-- In-grid test for a mask coordinate. -/
def BMask.inG (m : BMask) (r c : ℤ) : Bool :=
  decide (0 ≤ r ∧ r < (m.H : ℤ) ∧ 0 ≤ c ∧ c < (m.W : ℤ))

/-- Read a mask cell; out-of-grid coordinates read as `false`. -/
def BMask.get (m : BMask) (r c : ℤ) : Bool :=
  m.inG r c && m.cell r c

/-- Offsets of the full 3 × 3 structuring element `np.ones((3,3))`. -/
def offs : List (ℤ × ℤ) :=
  [(-1, -1), (-1, 0), (-1, 1), (0, -1), (0, 0), (0, 1), (1, -1), (1, 0), (1, 1)]

/-- Plane erosion with the 3 × 3 structuring element. -/
def eroZ (f : ℤ → ℤ → Bool) (r c : ℤ) : Bool :=
  offs.all fun d => f (r + d.1) (c + d.2)

/-- Plane dilation with the 3 × 3 structuring element. -/
def dilZ (f : ℤ → ℤ → Bool) (r c : ℤ) : Bool :=
  offs.any fun d => f (r + d.1) (c + d.2)

/-- Plane morphological opening: erosion then dilation. -/
def openZ (f : ℤ → ℤ → Bool) : ℤ → ℤ → Bool :=
  dilZ (eroZ f)

/-- Plane morphological closing: dilation then erosion. -/
def closeZ (f : ℤ → ℤ → Bool) : ℤ → ℤ → Bool :=
  eroZ (dilZ f)

/-- Plane open-close filter: opening followed by closing. -/
def ocZ (f : ℤ → ℤ → Bool) : ℤ → ℤ → Bool :=
  closeZ (openZ f)

/-- Grid binary erosion, scipy `ndimage.binary_erosion` with the 3 × 3
structuring element and default `border_value=0`: out-of-grid neighbours
read as `false` through `BMask.get`. -/
def binary_erosion (m : BMask) : BMask :=
  ⟨m.H, m.W, fun r c => eroZ m.get r c⟩

/-- Grid binary dilation, scipy `ndimage.binary_dilation` with the 3 × 3
structuring element (symmetric, so reflection is irrelevant). -/
def binary_dilation (m : BMask) : BMask :=
  ⟨m.H, m.W, fun r c => dilZ m.get r c⟩

/-- Grid binary opening (`extract-logo-advanced.py` line 24). -/
def binary_opening (m : BMask) : BMask :=
  binary_dilation (binary_erosion m)

/-- Grid binary closing (`extract-logo-advanced.py` line 26). -/
def binary_closing (m : BMask) : BMask :=
  binary_erosion (binary_dilation m)

/-- Mask refiner of `extract-logo-advanced.py` lines 24-26: opening to
remove noise, then closing to fill holes. -/
def refiner (m : BMask) : BMask :=
  binary_closing (binary_opening m)

/-- All in-grid coordinates of an `H × W` grid, row-major. -/
def cellsList (H W : ℕ) : List (ℕ × ℕ) :=
  (List.range H).flatMap fun r => (List.range W).map fun c => (r, c)

/-- In-grid cells of the mask whose value is `false` (the background cells
that the scipy distance transform measures distance to). -/
def falseCells (m : BMask) : List (ℕ × ℕ) :=
  (cellsList m.H m.W).filter fun q => !m.get q.1 q.2

/-- Squared Euclidean distance between two grid coordinates. -/
def distSq (p q : ℕ × ℕ) : ℕ :=
  (((p.1 : ℤ) - (q.1 : ℤ)) ^ 2 + ((p.2 : ℤ) - (q.2 : ℤ)) ^ 2).toNat

/-- Minimum of a list of naturals, `none` on the empty list. -/
def minList : List ℕ → Option ℕ
  | [] => none
  | x :: xs =>
    match minList xs with
    | none => some x
    | some y => some (min x y)

/-- Squared Euclidean distance transform,
`scipy.ndimage.distance_transform_edt` squared: the squared distance from a
cell to the nearest false (background) cell, `none` when the mask has no
false cell (scipy then reports huge distances, which the clamped ramp maps
to 1). -/
def edt_sq (m : BMask) (r c : ℕ) : Option ℕ :=
  minList ((falseCells m).map fun q => distSq (r, c) q)

/-- Hard-edge alpha of `extract-logo-advanced.py` line 52:
`(cropped_mask * 255)`. -/
def hardAlpha (m : BMask) (r c : ℕ) : ℕ :=
  (m.get r c).toNat * 255

/-- Soft-edge alpha of `extract-logo-advanced.py` lines 52-58:
`alpha = uint8(255 * mask)`, `smoothing = clip(edt / D, 0, 1)`,
`alpha = uint8(alpha * smoothing)` with falloff `D` (2.0 in the script).
Since `uint8` truncates and `floor(255 * sqrt(s) / D) =
Nat.sqrt(255^2 * s) / D`, the value is computable; the C2 theorem proves
the equivalence with the real-valued floor form. -/
def softAlpha (m : BMask) (D : ℕ) (r c : ℕ) : ℕ :=
  match edt_sq m r c with
  | none => (m.get r c).toNat * 255
  | some s =>
    if D ^ 2 ≤ s then (m.get r c).toNat * 255
    else (m.get r c).toNat * (Nat.sqrt (255 ^ 2 * s) / D)

/-- RGBA image: dimensions plus a total cell function (reads outside the
grid are junk and never relied upon; all stated equalities that matter are
in-grid, and crop only reads in-grid cells of its parent). -/
structure Img where
  H : ℕ
  W : ℕ
  cell : ℕ → ℕ → Pix

/-- Write the soft alpha into the alpha channel
(`cropped_img[:, :, 3] = alpha`, `extract-logo-advanced.py` line 61). -/
def applyAlphaSoft (im : Img) (m : BMask) (D : ℕ) : Img :=
  ⟨im.H, im.W, fun r c =>
    ⟨(im.cell r c).r, (im.cell r c).g, (im.cell r c).b, softAlpha m D r c⟩⟩

/-- Write the with-text alpha into the alpha channel
(`cropped_array[:, :, 3] = alpha`, `extract-logo-with-text.py` line 46). -/
def applyAlphaWT (im : Img) : Img :=
  ⟨im.H, im.W, fun r c =>
    ⟨(im.cell r c).r, (im.cell r c).g, (im.cell r c).b, alphaWT (im.cell r c)⟩⟩

/-- Rows that contain at least one true mask cell
(`rows = np.any(mask, axis=1)`, `extract-logo-advanced.py` line 29). -/
def rowsAny (m : BMask) : List ℕ :=
  (List.range m.H).filter fun r => (List.range m.W).any fun c => m.get r c

/-- Columns that contain at least one true mask cell
(`cols = np.any(mask, axis=0)`, line 30). -/
def colsAny (m : BMask) : List ℕ :=
  (List.range m.W).filter fun c => (List.range m.H).any fun r => m.get r c

/-- Bounding box extractor, `extract-logo-advanced.py` lines 29-32:
`np.where(rows)[0][[0, -1]]` takes the first and last true index and raises
an unhandled `IndexError` on an empty mask; that failure is modelled as
`none`. -/
def boundingBox (m : BMask) : Option (ℕ × ℕ × ℕ × ℕ) :=
  match (rowsAny m).head?, (rowsAny m).getLast?, (colsAny m).head?, (colsAny m).getLast? with
  | some t, some b, some l, some r => some (t, b, l, r)
  | _, _, _, _ => none

/-- Rows of an image containing a pixel with positive alpha
(`non_transparent = np.where(result_array[:, :, 3] > 0)`). -/
def alphaPosRows (im : Img) : List ℕ :=
  (List.range im.H).filter fun r =>
    (List.range im.W).any fun c => decide (0 < (im.cell r c).a)

/-- Columns of an image containing a pixel with positive alpha. -/
def alphaPosCols (im : Img) : List ℕ :=
  (List.range im.W).filter fun c =>
    (List.range im.H).any fun r => decide (0 < (im.cell r c).a)

/-- Guard `len(non_transparent[0]) > 0` of the trim step. -/
def hasAlphaPos (im : Img) : Bool :=
  !(alphaPosRows im).isEmpty

/-- PIL `Image.crop((left, top, right, bottom))`: half-open box. -/
def crop (im : Img) (left top right bottom : ℕ) : Img :=
  ⟨bottom - top, right - left, fun i j => im.cell (top + i) (left + j)⟩

/-- Trim step of both scripts (`extract-logo-advanced.py` lines 66-78):
crop to the minimal rectangle of pixels with alpha > 0, returning the image
unchanged when no such pixel exists. -/
def trim (im : Img) : Img :=
  if hasAlphaPos im then
    crop im ((alphaPosCols im).head?.getD 0) ((alphaPosRows im).head?.getD 0)
      ((alphaPosCols im).getLast?.getD 0 + 1) ((alphaPosRows im).getLast?.getD 0 + 1)
  else im

/-- All-true 3 × 3 mask (counterexample input for refiner idempotence). -/
def m3 : BMask := ⟨3, 3, fun _ _ => true⟩

/-- All-true 5 × 5 mask (witness input for the amended refiner claim). -/
def m5 : BMask := ⟨5, 5, fun _ _ => true⟩

/-- Mask that is false only at the corner cell of a 2 × 3 grid. -/
def wMask : BMask := ⟨2, 3, fun r c => !(decide (r = 0 ∧ c = 0))⟩

/-- Scenario mask of the spec: 100 × 100 grid whose true cells are exactly
the 20 × 20 square at rows and columns 40-59. -/
def sqMask : BMask :=
  ⟨100, 100, fun r c => decide (40 ≤ r ∧ r ≤ 59 ∧ 40 ≤ c ∧ c ≤ 59)⟩

/-- Fully transparent 1 × 1 image (witness input for the trim degenerate
case). -/
def clearImg : Img := ⟨1, 1, fun _ _ => ⟨0, 0, 0, 0⟩⟩

/-- Indicator of the square box `[lo, hi] × [lo, hi]` of the plane, used to
describe intermediate masks in the refiner computations. -/
def boxB (lo hi : ℤ) : ℤ → ℤ → Bool :=
  fun a b => decide (lo ≤ a ∧ a ≤ hi ∧ lo ≤ b ∧ b ≤ hi)

end Logo

namespace Logo

/-- C1: in distance-threshold mode with threshold t > 0, a pixel is
classified as content iff the Euclidean distance of its color from the
reference white is strictly greater than t, and the reference color itself
(distance 0) is classified as background. -/
theorem C1_classifier_distance (t : ℚ) (c : Color) (ht : 0 < t) :
    (fgMask t c = true ↔ (t : ℝ) < Real.sqrt ((colorDistSq c white : ℤ) : ℝ)) ∧
      fgMask t white = false := by
  constructor
  · rw [fgMask, decide_eq_true_eq]
    have h0 : (0 : ℝ) ≤ (t : ℝ) := by exact_mod_cast ht.le
    rw [Real.lt_sqrt h0]
    constructor
    · intro h; exact_mod_cast h
    · intro h; exact_mod_cast h
  · have h0 : colorDistSq white white = 0 := by decide
    rw [fgMask, h0]
    simp only [Int.cast_zero, decide_eq_false_iff_not, not_lt]
    exact sq_nonneg t

/-- Witness for C1 at threshold 50: pure black is content, pure white is
background. -/
theorem C1_classifier_distance_witness :
    fgMask 50 ⟨0, 0, 0⟩ = true ∧ fgMask 50 white = false := by
  refine ⟨?_, (C1_classifier_distance 50 ⟨0, 0, 0⟩ (by norm_num)).2⟩
  rw [(C1_classifier_distance 50 ⟨0, 0, 0⟩ (by norm_num)).1]
  have h1 : ((colorDistSq ⟨0, 0, 0⟩ white : ℤ) : ℝ) = 195075 := by
    norm_num [colorDistSq, white]
  have h2 : ((50 : ℚ) : ℝ) = 50 := by norm_num
  rw [h1, h2, Real.lt_sqrt (by norm_num)]
  norm_num

/-- C3 counterexample: the advanced selector truncates rather than rounds
(at minRow 0, maxRow 1, fraction 3/5 it yields 0, the claimed formula 1),
and the with-text selector scales maxRow from the image origin instead of
using minRow + fraction * (maxRow - minRow) (at minRow 10, maxRow 20 it
yields 15, the claimed formula 18). -/
theorem C3_selector_counterexample :
    graphic_only_y 0 1 (3 / 5) ≠ min (0 + round ((3 / 5 : ℚ) * ((1 : ℚ) - 0))) 1 ∧
      graphic_text_max_y 20 ≠ min ((10 : ℤ) + round ((3 / 4 : ℚ) * ((20 : ℚ) - 10))) 20 := by
  constructor
  · have h1 : graphic_only_y 0 1 (3 / 5) = 0 := by
      rw [graphic_only_y]
      norm_num [Int.floor_eq_iff]
    have h2 : round ((3 / 5 : ℚ) * ((1 : ℚ) - 0)) = 1 := by
      norm_num [round_eq, Int.floor_eq_iff]
    rw [h1, h2]
    norm_num
  · have h1 : graphic_text_max_y 20 = 15 := by
      rw [graphic_text_max_y]
      norm_num [Int.floor_eq_iff]
    have h2 : round ((3 / 4 : ℚ) * ((20 : ℚ) - 10)) = 8 := by
      norm_num [round_eq, Int.floor_eq_iff]
    rw [h1, h2]
    norm_num

/-- C3 amended: the advanced selector computes
minRow + floor(fraction * (maxRow - minRow)); this never exceeds maxRow (so
the claimed clamp is vacuous), equals maxRow at fraction 1, and equals
minRow once fraction * (maxRow - minRow) < 1.  The with-text script instead
computes floor(0.75 * maxRow), which agrees with the formula only when
minRow = 0. -/
theorem C3_selector_amended :
    (∀ (ymin ymax : ℕ) (f : ℚ), ymin ≤ ymax → 0 < f → f ≤ 1 →
      graphic_only_y ymin ymax f = ymin + ⌊f * ((ymax : ℚ) - (ymin : ℚ))⌋ ∧
        (ymin : ℤ) ≤ graphic_only_y ymin ymax f ∧
        graphic_only_y ymin ymax f ≤ (ymax : ℤ) ∧
        (f = 1 → graphic_only_y ymin ymax f = (ymax : ℤ)) ∧
        (f * ((ymax : ℚ) - (ymin : ℚ)) < 1 → graphic_only_y ymin ymax f = (ymin : ℤ))) ∧
      ∀ max_y : ℕ, graphic_text_max_y max_y = 0 + ⌊(3 / 4 : ℚ) * ((max_y : ℚ) - ((0 : ℕ) : ℚ))⌋ := by
  constructor
  · intro ymin ymax f hle hf0 hf1
    have hca : ((ymin : ℕ) : ℚ) = (((ymin : ℕ) : ℤ) : ℚ) := by push_cast; ring
    have hΔ : (0 : ℚ) ≤ (ymax : ℚ) - (ymin : ℚ) := by
      rw [sub_nonneg]
      exact_mod_cast hle
    have hmain : graphic_only_y ymin ymax f = ymin + ⌊f * ((ymax : ℚ) - (ymin : ℚ))⌋ := by
      rw [graphic_only_y, hca, Int.floor_int_add, mul_comm]
    have hfloor0 : (0 : ℤ) ≤ ⌊f * ((ymax : ℚ) - (ymin : ℚ))⌋ :=
      Int.floor_nonneg.mpr (mul_nonneg hf0.le hΔ)
    have hfloorΔ : ⌊f * ((ymax : ℚ) - (ymin : ℚ))⌋ ≤ (ymax : ℤ) - (ymin : ℤ) := by
      have hstep : f * ((ymax : ℚ) - (ymin : ℚ)) ≤ (ymax : ℚ) - (ymin : ℚ) := by
        calc f * ((ymax : ℚ) - (ymin : ℚ)) ≤ 1 * ((ymax : ℚ) - (ymin : ℚ)) :=
              mul_le_mul_of_nonneg_right hf1 hΔ
          _ = (ymax : ℚ) - (ymin : ℚ) := one_mul _
      have hcast : ((ymax : ℚ) - (ymin : ℚ)) = (((ymax : ℤ) - (ymin : ℤ) : ℤ) : ℚ) := by
        push_cast; ring
      calc ⌊f * ((ymax : ℚ) - (ymin : ℚ))⌋ ≤ ⌊(ymax : ℚ) - (ymin : ℚ)⌋ :=
            Int.floor_le_floor hstep
        _ = (ymax : ℤ) - (ymin : ℤ) := by rw [hcast, Int.floor_intCast]
    refine ⟨hmain, ?_, ?_, ?_, ?_⟩
    · rw [hmain]; omega
    · rw [hmain]; omega
    · intro h1
      subst h1
      rw [hmain, one_mul]
      have hcast : ((ymax : ℚ) - (ymin : ℚ)) = (((ymax : ℤ) - (ymin : ℤ) : ℤ) : ℚ) := by
        push_cast; ring
      rw [hcast, Int.floor_intCast]
      have : (ymin : ℤ) ≤ (ymax : ℤ) := by exact_mod_cast hle
      omega
    · intro hsmall
      rw [hmain]
      have : ⌊f * ((ymax : ℚ) - (ymin : ℚ))⌋ = 0 := by
        rw [Int.floor_eq_zero_iff]
        exact ⟨mul_nonneg hf0.le hΔ, hsmall⟩
      omega
  · intro max_y
    rw [graphic_text_max_y]
    norm_num [mul_comm]

/-- Witness for the amended C3 at minRow 5, maxRow 25, fraction 3/5:
the cutoff is 5 + floor(12) = 17. -/
theorem C3_selector_amended_witness : graphic_only_y 5 25 (3 / 5) = 17 := by
  have h := (C3_selector_amended.1 5 25 (3 / 5) (by norm_num) (by norm_num) (by norm_num)).1
  rw [h]
  norm_num [Int.floor_eq_iff]

/-- The minimum of a list is `none` exactly on the empty list. -/
theorem minList_eq_none {l : List ℕ} : minList l = none ↔ l = [] := by
  cases l with
  | nil => simp [minList]
  | cons x xs =>
    cases hxs : minList xs <;> simp [minList, hxs]

/-- The minimum of a list is a member and a lower bound. -/
theorem minList_mem_le {l : List ℕ} {v : ℕ} (h : minList l = some v) :
    v ∈ l ∧ ∀ x ∈ l, v ≤ x := by
  induction l generalizing v with
  | nil => exact absurd h (by simp [minList])
  | cons x xs ih =>
    cases hxs : minList xs with
    | none =>
      have hnil : xs = [] := minList_eq_none.mp hxs
      subst hnil
      simp only [minList] at h
      have hv : v = x := by
        simpa using h.symm
      subst hv
      simp
    | some y =>
      simp only [minList, hxs] at h
      have hv : v = min x y := by
        simpa using h.symm
      obtain ⟨hmem, hlb⟩ := ih hxs
      subst hv
      constructor
      · rcases le_total x y with hxy | hxy
        · simp [min_eq_left hxy]
        · right
          rw [min_eq_right hxy]
          exact hmem
      · intro z hz
        rcases List.mem_cons.mp hz with hzx | hzxs
        · subst hzx
          exact min_le_left _ _
        · exact le_trans (le_trans (min_le_right _ _) (hlb z hzxs)) le_rfl

/-- A member that is a lower bound is the minimum. -/
theorem minList_eq_some {l : List ℕ} {v : ℕ} (hv : v ∈ l) (hlb : ∀ x ∈ l, v ≤ x) :
    minList l = some v := by
  induction l with
  | nil => exact absurd hv (by simp)
  | cons x xs ih =>
    cases hxs : minList xs with
    | none =>
      have hnil : xs = [] := minList_eq_none.mp hxs
      subst hnil
      have hvx : v = x := by simpa using hv
      subst hvx
      simp [minList]
    | some y =>
      obtain ⟨hymem, _⟩ := minList_mem_le hxs
      have hvy : v ≤ y := hlb y (List.mem_cons_of_mem x hymem)
      have hvx : v ≤ x := hlb x (List.mem_cons_self x xs)
      simp only [minList, hxs]
      rcases List.mem_cons.mp hv with hcase | hcase
      · subst hcase
        have : min v y = v := min_eq_left hvy
        rw [this]
      · have hyv : y ≤ v := (minList_mem_le hxs).2 v hcase
        have hyeq : y = v := le_antisymm hyv hvy
        subst hyeq
        rw [min_eq_right hvx]

/-- Membership in the full cell list. -/
theorem mem_cellsList {H W : ℕ} {q : ℕ × ℕ} :
    q ∈ cellsList H W ↔ q.1 < H ∧ q.2 < W := by
  rw [cellsList]
  constructor
  · intro h
    obtain ⟨r, hr, h2⟩ := List.mem_flatMap.mp h
    obtain ⟨c, hc, hqe⟩ := List.mem_map.mp h2
    subst hqe
    exact ⟨List.mem_range.mp hr, List.mem_range.mp hc⟩
  · rintro ⟨h1, h2⟩
    refine List.mem_flatMap.mpr ⟨q.1, List.mem_range.mpr h1, ?_⟩
    exact List.mem_map.mpr ⟨q.2, List.mem_range.mpr h2, rfl⟩

/-- Membership in the background cell list. -/
theorem mem_falseCells {m : BMask} {q : ℕ × ℕ} :
    q ∈ falseCells m ↔ q.1 < m.H ∧ q.2 < m.W ∧ m.get q.1 q.2 = false := by
  rw [falseCells, List.mem_filter, mem_cellsList, Bool.not_eq_true']
  tauto

/-- Coordinates at squared distance zero coincide. -/
theorem distSq_eq_zero {p q : ℕ × ℕ} (h : distSq p q = 0) : p = q := by
  rw [distSq] at h
  have hz : ((p.1 : ℤ) - (q.1 : ℤ)) ^ 2 + ((p.2 : ℤ) - (q.2 : ℤ)) ^ 2 = 0 := by
    have h1 := Int.toNat_eq_zero.mp h
    nlinarith [sq_nonneg ((p.1 : ℤ) - (q.1 : ℤ)), sq_nonneg ((p.2 : ℤ) - (q.2 : ℤ))]
  have h1 : ((p.1 : ℤ) - (q.1 : ℤ)) = 0 := by
    nlinarith [sq_nonneg ((p.1 : ℤ) - (q.1 : ℤ)), sq_nonneg ((p.2 : ℤ) - (q.2 : ℤ))]
  have h2 : ((p.2 : ℤ) - (q.2 : ℤ)) = 0 := by
    nlinarith [sq_nonneg ((p.1 : ℤ) - (q.1 : ℤ)), sq_nonneg ((p.2 : ℤ) - (q.2 : ℤ))]
  have hp1 : p.1 = q.1 := by omega
  have hp2 : p.2 = q.2 := by omega
  exact Prod.ext_iff.mpr ⟨hp1, hp2⟩

/-- Characterisation of a successful distance-transform value. -/
theorem edt_sq_some {m : BMask} {r c s : ℕ} (h : edt_sq m r c = some s) :
    (∃ q ∈ falseCells m, distSq (r, c) q = s) ∧
      ∀ q ∈ falseCells m, s ≤ distSq (r, c) q := by
  rw [edt_sq] at h
  obtain ⟨hmem, hlb⟩ := minList_mem_le h
  constructor
  · obtain ⟨q, hq, hd⟩ := List.mem_map.mp hmem
    exact ⟨q, hq, hd⟩
  · intro q hq
    exact hlb _ (List.mem_map.mpr ⟨q, hq, rfl⟩)

/-- On a content cell the distance transform is at least one. -/
theorem edt_sq_pos {m : BMask} {r c s : ℕ} (hget : m.get r c = true)
    (h : edt_sq m r c = some s) : 1 ≤ s := by
  obtain ⟨⟨q, hq, hd⟩, _⟩ := edt_sq_some h
  by_contra hs
  have hs0 : s = 0 := by omega
  subst hs0
  have hpq := distSq_eq_zero hd
  rw [mem_falseCells] at hq
  rw [← hpq] at hq
  exact absurd hget (by simp [hq.2.2])

/-- A content cell next to a background cell has distance-transform value
one. -/
theorem edt_sq_eq_one {m : BMask} {r c : ℕ} {q : ℕ × ℕ} (hget : m.get r c = true)
    (hq : q ∈ falseCells m) (hd : distSq (r, c) q = 1) : edt_sq m r c = some 1 := by
  rw [edt_sq]
  apply minList_eq_some
  · exact List.mem_map.mpr ⟨q, hq, hd⟩
  · intro x hx
    obtain ⟨q', hq', hd'⟩ := List.mem_map.mp hx
    by_contra hlt
    have hx0 : x = 0 := by omega
    subst hx0
    have hpq := distSq_eq_zero hd'
    rw [mem_falseCells] at hq'
    rw [← hpq] at hq'
    exact absurd hget (by simp [hq'.2.2])

/-- Soft alpha when the mask has no background cell. -/
theorem softAlpha_none (m : BMask) (D r c : ℕ) (h : edt_sq m r c = none) :
    softAlpha m D r c = (m.get r c).toNat * 255 := by
  unfold softAlpha
  rw [h]

/-- Soft alpha at squared distance at least the squared falloff. -/
theorem softAlpha_far (m : BMask) (D r c s : ℕ) (h : edt_sq m r c = some s)
    (hs : D ^ 2 ≤ s) : softAlpha m D r c = (m.get r c).toNat * 255 := by
  unfold softAlpha
  rw [h]
  exact if_pos hs

/-- Soft alpha at squared distance below the squared falloff. -/
theorem softAlpha_near (m : BMask) (D r c s : ℕ) (h : edt_sq m r c = some s)
    (hs : ¬D ^ 2 ≤ s) :
    softAlpha m D r c = (m.get r c).toNat * (Nat.sqrt (255 ^ 2 * s) / D) := by
  unfold softAlpha
  rw [h]
  exact if_neg hs

/-- The computable soft alpha agrees with the truncated real-valued ramp
formula whenever a background cell exists. -/
theorem softAlpha_formula (m : BMask) (D r c s : ℕ) (hD : 0 < D)
    (h : edt_sq m r c = some s) :
    softAlpha m D r c =
      ⌊(255 : ℝ) * ((m.get r c).toNat : ℝ) * min 1 (Real.sqrt (s : ℝ) / (D : ℝ))⌋₊ := by
  have hD' : (0 : ℝ) < (D : ℝ) := by exact_mod_cast hD
  cases hget : m.get r c with
  | false =>
    have hL : softAlpha m D r c = 0 := by
      by_cases hs : D ^ 2 ≤ s
      · rw [softAlpha_far m D r c s h hs, hget]
        simp
      · rw [softAlpha_near m D r c s h hs, hget]
        simp
    rw [hL]
    simp
  | true =>
    simp only [Bool.toNat_true, Nat.cast_one, mul_one]
    by_cases hs : D ^ 2 ≤ s
    · rw [softAlpha_far m D r c s h hs, hget]
      have hds : (D : ℝ) ≤ Real.sqrt (s : ℝ) := by
        rw [Real.le_sqrt (by positivity) (by positivity)]
        exact_mod_cast hs
      have hmin : min (1 : ℝ) (Real.sqrt (s : ℝ) / (D : ℝ)) = 1 := by
        apply min_eq_left
        rw [le_div_iff₀ hD', one_mul]
        exact hds
      rw [hmin]
      norm_num
    · rw [softAlpha_near m D r c s h hs, hget]
      have hslt : (s : ℝ) < (D : ℝ) ^ 2 := by
        exact_mod_cast Nat.lt_of_not_le hs
      have hsd : Real.sqrt (s : ℝ) < (D : ℝ) := by
        rw [Real.sqrt_lt' hD']
        exact hslt
      have hmin : min (1 : ℝ) (Real.sqrt (s : ℝ) / (D : ℝ)) = Real.sqrt (s : ℝ) / (D : ℝ) := by
        apply min_eq_right
        rw [div_le_one hD']
        exact hsd.le
      rw [hmin]
      have hrw : (255 : ℝ) * (Real.sqrt (s : ℝ) / (D : ℝ)) =
          Real.sqrt ((255 ^ 2 * s : ℕ) : ℝ) / (D : ℝ) := by
        have hsq : Real.sqrt (((255 ^ 2 * s : ℕ) : ℝ)) = 255 * Real.sqrt (s : ℝ) := by
          have hc : (((255 ^ 2 * s : ℕ) : ℝ)) = (255 : ℝ) ^ 2 * (s : ℝ) := by push_cast; ring
          rw [hc, Real.sqrt_mul (by positivity), Real.sqrt_sq (by norm_num)]
        rw [hsq]
        ring
      rw [hrw]
      rw [Nat.floor_div_nat, Real.nat_floor_real_sqrt_eq_nat_sqrt]
      simp

/-- Boundary value: a content cell adjacent to background gets soft alpha
127 at falloff width 2. -/
theorem softAlpha_boundary {m : BMask} {r c : ℕ} {q : ℕ × ℕ} (hget : m.get r c = true)
    (hq : q ∈ falseCells m) (hd : distSq (r, c) q = 1) : softAlpha m 2 r c = 127 := by
  have he := edt_sq_eq_one hget hq hd
  rw [softAlpha_near m 2 r c 1 he (by norm_num), hget]
  have h255 : Nat.sqrt (255 ^ 2 * 1) = 255 := by
    rw [mul_one]
    exact (Nat.eq_sqrt'.mpr (by norm_num)).symm
  rw [h255]
  rfl

/-- Cells of the scenario square read true. -/
theorem sqMask_get_true {r c : ℕ} (h1 : 40 ≤ r) (h2 : r ≤ 59) (h3 : 40 ≤ c)
    (h4 : c ≤ 59) : sqMask.get r c = true := by
  simp only [sqMask, BMask.get, BMask.inG, Bool.and_eq_true, decide_eq_true_eq]
  refine ⟨by omega, by omega⟩

/-- Cells outside the scenario square read false. -/
theorem sqMask_get_false {a b : ℕ} (h : ¬(40 ≤ a ∧ a ≤ 59 ∧ 40 ≤ b ∧ b ≤ 59)) :
    sqMask.get a b = false := by
  cases hg : sqMask.get (a : ℤ) (b : ℤ) with
  | false => rfl
  | true =>
    exfalso
    simp only [sqMask, BMask.get, BMask.inG, Bool.and_eq_true, decide_eq_true_eq] at hg
    omega

/-- In-grid cells outside the scenario square are background cells. -/
theorem sqMask_false_mem (a b : ℕ) (ha : a < 100) (hb : b < 100)
    (h : ¬(40 ≤ a ∧ a ≤ 59 ∧ 40 ≤ b ∧ b ≤ 59)) : (a, b) ∈ falseCells sqMask := by
  rw [mem_falseCells]
  exact ⟨ha, hb, sqMask_get_false h⟩

/-- Every boundary pixel of the scenario square gets soft alpha 127 at
falloff width 2. -/
theorem scenario_boundary {r c : ℕ} (h1 : 40 ≤ r) (h2 : r ≤ 59) (h3 : 40 ≤ c)
    (h4 : c ≤ 59) (hb : r = 40 ∨ r = 59 ∨ c = 40 ∨ c = 59) :
    softAlpha sqMask 2 r c = 127 := by
  have hget : sqMask.get r c = true := sqMask_get_true h1 h2 h3 h4
  rcases hb with hb | hb | hb | hb
  · subst hb
    refine softAlpha_boundary hget (sqMask_false_mem 39 c (by omega) (by omega) (by omega)) ?_
    rw [distSq]
    norm_num [sub_self]
  · subst hb
    refine softAlpha_boundary hget (sqMask_false_mem 60 c (by omega) (by omega) (by omega)) ?_
    rw [distSq]
    norm_num [sub_self]
  · subst hb
    refine softAlpha_boundary hget (sqMask_false_mem r 39 (by omega) (by omega) (by omega)) ?_
    rw [distSq]
    norm_num [sub_self]
  · subst hb
    refine softAlpha_boundary hget (sqMask_false_mem r 60 (by omega) (by omega) (by omega)) ?_
    rw [distSq]
    norm_num [sub_self]

/-- A mask cell that reads true is inside the grid. -/
theorem get_true_bounds {m : BMask} {r c : ℤ} (h : m.get r c = true) :
    0 ≤ r ∧ r < (m.H : ℤ) ∧ 0 ≤ c ∧ c < (m.W : ℤ) := by
  rw [BMask.get, Bool.and_eq_true, BMask.inG, decide_eq_true_eq] at h
  exact h.1

/-- Membership in the true-row list. -/
theorem mem_rowsAny {m : BMask} {r : ℕ} :
    r ∈ rowsAny m ↔ r < m.H ∧ ∃ c, c ∈ List.range m.W ∧ m.get r c = true := by
  rw [rowsAny, List.mem_filter, List.mem_range, List.any_eq_true]

/-- Membership in the true-column list. -/
theorem mem_colsAny {m : BMask} {c : ℕ} :
    c ∈ colsAny m ↔ c < m.W ∧ ∃ r, r ∈ List.range m.H ∧ m.get r c = true := by
  rw [colsAny, List.mem_filter, List.mem_range, List.any_eq_true]

/-- A true cell yields membership witnesses in both index lists. -/
theorem rowsAny_colsAny_of_get {m : BMask} {r c : ℤ} (h : m.get r c = true) :
    r.toNat ∈ rowsAny m ∧ c.toNat ∈ colsAny m := by
  obtain ⟨hr0, hrH, hc0, hcW⟩ := get_true_bounds h
  have hrc : ((r.toNat : ℤ)) = r := Int.toNat_of_nonneg hr0
  have hcc : ((c.toNat : ℤ)) = c := Int.toNat_of_nonneg hc0
  constructor
  · rw [mem_rowsAny]
    refine ⟨by omega, c.toNat, List.mem_range.mpr (by omega), ?_⟩
    rw [hrc, hcc]
    exact h
  · rw [mem_colsAny]
    refine ⟨by omega, r.toNat, List.mem_range.mpr (by omega), ?_⟩
    rw [hrc, hcc]
    exact h

/-- A nonempty list has a head. -/
theorem head?_some_of_ne_nil {l : List ℕ} (h : l ≠ []) : ∃ a, l.head? = some a := by
  cases l with
  | nil => exact absurd rfl h
  | cons x xs => exact ⟨x, rfl⟩

/-- A nonempty list has a last element. -/
theorem getLast?_some_of_ne_nil {l : List ℕ} (h : l ≠ []) : ∃ a, l.getLast? = some a := by
  cases hl : l.getLast? with
  | none => exact absurd (List.getLast?_eq_none_iff.mp hl) h
  | some a => exact ⟨a, rfl⟩

/-- C4: the bounding box extraction signals failure (here `none`; in the
script an uncaught IndexError aborting the run) exactly when the mask has
no true cell, so an empty mask never silently yields a zero-size box. -/
theorem C4_bbox_empty (m : BMask) :
    boundingBox m = none ↔ ∀ r c : ℤ, m.get r c = false := by
  constructor
  · intro hbb
    by_contra hcon
    push_neg at hcon
    obtain ⟨r, c, hrc⟩ := hcon
    have htrue : m.get r c = true := by
      cases hg : m.get r c with
      | false => exact absurd hg hrc
      | true => rfl
    obtain ⟨hrm, hcm⟩ := rowsAny_colsAny_of_get htrue
    obtain ⟨t, ht⟩ := head?_some_of_ne_nil (List.ne_nil_of_mem hrm)
    obtain ⟨b, hb⟩ := getLast?_some_of_ne_nil (List.ne_nil_of_mem hrm)
    obtain ⟨l, hl⟩ := head?_some_of_ne_nil (List.ne_nil_of_mem hcm)
    obtain ⟨rr, hrr⟩ := getLast?_some_of_ne_nil (List.ne_nil_of_mem hcm)
    rw [boundingBox, ht, hb, hl, hrr] at hbb
    exact absurd hbb (by simp)
  · intro hall
    have hrows : rowsAny m = [] := by
      rw [rowsAny, List.filter_eq_nil_iff]
      intro r _
      simp only [List.any_eq_true, not_exists]
      intro c
      rw [hall r c]
      simp
    rw [boundingBox, hrows]
    rfl

/-- C6: when no pixel has positive alpha, the trim step returns the image
unchanged instead of failing. -/
theorem C6_trim_degenerate (im : Img)
    (h : ∀ r c : ℕ, r < im.H → c < im.W → (im.cell r c).a = 0) : trim im = im := by
  have hrows : alphaPosRows im = [] := by
    rw [alphaPosRows, List.filter_eq_nil_iff]
    intro r hr
    rw [List.mem_range] at hr
    simp only [List.any_eq_true, List.mem_range, decide_eq_true_eq, not_exists, not_and]
    intro c hc
    rw [h r c hr hc]
    simp
  have hcond : hasAlphaPos im = false := by
    rw [hasAlphaPos, hrows]
    rfl
  rw [trim, hcond]
  simp

/-- Witness for C6: a fully transparent 1 × 1 image trims to itself. -/
theorem C6_trim_degenerate_witness : trim clearImg = clearImg :=
  C6_trim_degenerate clearImg fun _ _ _ _ => rfl

/-- C10: soft-edge alpha never exceeds the hard-edge value 255 * mask, and
background pixels (distance-transform value 0) get alpha exactly 0. -/
theorem C10_soft_le_hard (m : BMask) (D : ℕ) (r c : ℕ) (hD : 0 < D) :
    softAlpha m D r c ≤ 255 * (m.get r c).toNat ∧
      (m.get r c = false → softAlpha m D r c = 0) := by
  constructor
  · cases he : edt_sq m r c with
    | none =>
      rw [softAlpha_none m D r c he]
      omega
    | some s =>
      by_cases hs : D ^ 2 ≤ s
      · rw [softAlpha_far m D r c s he hs]
        omega
      · rw [softAlpha_near m D r c s he hs]
        have hsD : s ≤ D ^ 2 := Nat.le_of_lt (Nat.lt_of_not_le hs)
        have hsqle : Nat.sqrt (255 ^ 2 * s) ≤ 255 * D := by
          have hmul : 255 ^ 2 * s ≤ (255 * D) * (255 * D) := by
            calc 255 ^ 2 * s ≤ 255 ^ 2 * D ^ 2 := Nat.mul_le_mul_left _ hsD
              _ = (255 * D) * (255 * D) := by ring
          calc Nat.sqrt (255 ^ 2 * s) ≤ Nat.sqrt ((255 * D) * (255 * D)) :=
                Nat.sqrt_le_sqrt hmul
            _ = 255 * D := Nat.sqrt_eq (255 * D)
        have hdivle : Nat.sqrt (255 ^ 2 * s) / D ≤ 255 := by
          calc Nat.sqrt (255 ^ 2 * s) / D ≤ (255 * D) / D := Nat.div_le_div_right hsqle
            _ = 255 := Nat.mul_div_cancel 255 hD
        cases m.get r c with
        | false => simp
        | true => simpa using hdivle
  · intro hf
    cases he : edt_sq m r c with
    | none =>
      rw [softAlpha_none m D r c he, hf]
      rfl
    | some s =>
      by_cases hs : D ^ 2 ≤ s
      · rw [softAlpha_far m D r c s he hs, hf]
        rfl
      · rw [softAlpha_near m D r c s he hs, hf]
        simp

/-- Witness for C10: the background corner cell of the 2 × 3 mask gets
soft alpha 0. -/
theorem C10_soft_le_hard_witness : softAlpha wMask 2 0 0 = 0 :=
  (C10_soft_le_hard wMask 2 0 0 (by norm_num)).2 (by decide)

/-- C2 counterexample: the compositor truncates instead of rounding.  On
the 2 × 3 mask whose only background cell is the corner, the cell at
squared distance 5 with falloff width 4 gets alpha
floor(255 * sqrt(5) / 4) = 142, while the claimed round-to-nearest formula
gives 143. -/
theorem C2_soft_alpha_counterexample :
    edt_sq wMask 1 2 = some 5 ∧
      wMask.get 1 2 = true ∧
      (softAlpha wMask 4 1 2 : ℤ) ≠ round ((255 : ℝ) * min 1 (Real.sqrt 5 / 4)) := by
  refine ⟨by decide, by decide, ?_⟩
  have he : edt_sq wMask 1 2 = some 5 := by decide
  have hval : softAlpha wMask 4 1 2 = 142 := by
    rw [softAlpha_near wMask 4 1 2 5 he (by norm_num)]
    have hg : wMask.get ((1 : ℕ) : ℤ) ((2 : ℕ) : ℤ) = true := by decide
    rw [hg]
    have hsq : Nat.sqrt (255 ^ 2 * 5) = 570 := (Nat.eq_sqrt'.mpr (by norm_num)).symm
    rw [hsq]
    rfl
  rw [hval]
  have hminr : min (1 : ℝ) (Real.sqrt 5 / 4) = Real.sqrt 5 / 4 := by
    apply min_eq_right
    rw [div_le_one (by norm_num)]
    have h4 : Real.sqrt 5 < 4 := by
      rw [Real.sqrt_lt' (by norm_num)]
      norm_num
    exact h4.le
  rw [hminr]
  have hlo : (2.236 : ℝ) ≤ Real.sqrt 5 := by
    rw [Real.le_sqrt (by norm_num) (by norm_num)]
    norm_num
  have hhi : Real.sqrt 5 < 2.2361 := by
    rw [Real.sqrt_lt' (by norm_num)]
    norm_num
  have hround : round ((255 : ℝ) * (Real.sqrt 5 / 4)) = 143 := by
    rw [round_eq]
    apply Int.floor_eq_iff.mpr
    constructor
    · push_cast
      linarith
    · push_cast
      linarith
  rw [hround]
  norm_num

/-- C2 amended: soft-edge alpha is 255 * mask * clamp(dist / D, 0, 1)
truncated toward zero (not rounded to nearest); true cells at distance at
least D from background get alpha exactly 255; and in the 20 × 20 black
square scenario every boundary pixel of the square gets alpha strictly
between 0 and 255 (namely 127). -/
theorem C2_soft_alpha_amended :
    (∀ (m : BMask) (D r c s : ℕ), 0 < D → edt_sq m r c = some s →
        softAlpha m D r c =
          ⌊(255 : ℝ) * ((m.get r c).toNat : ℝ) * min 1 (Real.sqrt (s : ℝ) / (D : ℝ))⌋₊) ∧
      (∀ (m : BMask) (D r c s : ℕ), edt_sq m r c = some s → m.get r c = true →
        D ^ 2 ≤ s → softAlpha m D r c = 255) ∧
      ∀ r c : ℕ, 40 ≤ r → r ≤ 59 → 40 ≤ c → c ≤ 59 →
        (r = 40 ∨ r = 59 ∨ c = 40 ∨ c = 59) →
        0 < softAlpha sqMask 2 r c ∧ softAlpha sqMask 2 r c < 255 := by
  refine ⟨fun m D r c s hD h => softAlpha_formula m D r c s hD h, ?_, ?_⟩
  · intro m D r c s h hget hs
    rw [softAlpha_far m D r c s h hs, hget]
    rfl
  · intro r c h1 h2 h3 h4 hb
    rw [scenario_boundary h1 h2 h3 h4 hb]
    norm_num

/-- Witness for the amended C2: the ramp formula, the saturation case and
the scenario boundary case at concrete inputs. -/
theorem C2_soft_alpha_amended_witness :
    softAlpha wMask 2 0 0 =
        ⌊(255 : ℝ) * ((wMask.get ((0 : ℕ) : ℤ) ((0 : ℕ) : ℤ)).toNat : ℝ) *
          min 1 (Real.sqrt ((0 : ℕ) : ℝ) / ((2 : ℕ) : ℝ))⌋₊ ∧
      softAlpha wMask 2 1 2 = 255 ∧
      (0 < softAlpha sqMask 2 40 45 ∧ softAlpha sqMask 2 40 45 < 255) := by
  refine ⟨?_, ?_, ?_⟩
  · exact C2_soft_alpha_amended.1 wMask 2 0 0 0 (by norm_num) (by decide)
  · exact C2_soft_alpha_amended.2.1 wMask 2 1 2 5 (by decide) (by decide) (by norm_num)
  · exact C2_soft_alpha_amended.2.2 40 45 (by norm_num) (by norm_num) (by norm_num)
      (by norm_num) (Or.inl rfl)

/-- C7: hard-edge alpha is mask times 255 and is {0, 255}-valued, in both
the advanced script (line 52) and the with-text script (lines 35-43, whose
implicit mask is "neither light nor grayish"). -/
theorem C7_hard_alpha (m : BMask) (r c : ℕ) (p : Pix) :
    hardAlpha m r c = 255 * (m.get r c).toNat ∧
      (hardAlpha m r c = 0 ∨ hardAlpha m r c = 255) ∧
      alphaWT p = 255 * (wtMask p).toNat ∧
      (alphaWT p = 0 ∨ alphaWT p = 255) := by
  refine ⟨by rw [hardAlpha]; ring, ?_, ?_, ?_⟩
  · rw [hardAlpha]
    cases m.get r c <;> simp
  · rw [alphaWT, wtMask]
    cases light_pixels p <;> cases grayish p <;> simp
  · rw [alphaWT]
    cases light_pixels p <;> cases grayish p <;> simp

/-- C8: the alpha compositor (either mode) only writes the alpha channel;
the three color channels of every pixel are unchanged. -/
theorem C8_alpha_frame (im : Img) (m : BMask) (D : ℕ) (r c : ℕ) :
    ((applyAlphaSoft im m D).cell r c).r = (im.cell r c).r ∧
      ((applyAlphaSoft im m D).cell r c).g = (im.cell r c).g ∧
      ((applyAlphaSoft im m D).cell r c).b = (im.cell r c).b ∧
      ((applyAlphaWT im).cell r c).r = (im.cell r c).r ∧
      ((applyAlphaWT im).cell r c).g = (im.cell r c).g ∧
      ((applyAlphaWT im).cell r c).b = (im.cell r c).b :=
  ⟨rfl, rfl, rfl, rfl, rfl, rfl⟩

/-- Every structuring-element offset has its negation in the element. -/
theorem mem_offs_neg : ∀ d ∈ offs, ((-d.1, -d.2) : ℤ × ℤ) ∈ offs := by decide

/-- Membership form of plane erosion. -/
theorem eroZ_iff {f : ℤ → ℤ → Bool} {r c : ℤ} :
    eroZ f r c = true ↔ ∀ d ∈ offs, f (r + d.1) (c + d.2) = true := by
  rw [eroZ, List.all_eq_true]

/-- Membership form of plane dilation. -/
theorem dilZ_iff {f : ℤ → ℤ → Bool} {r c : ℤ} :
    dilZ f r c = true ↔ ∃ d ∈ offs, f (r + d.1) (c + d.2) = true := by
  rw [dilZ, List.any_eq_true]

/-- Erosion is dominated by the identity (the element contains the
origin). -/
theorem eroZ_center {f : ℤ → ℤ → Bool} {r c : ℤ} (h : eroZ f r c = true) :
    f r c = true := by
  have h0 := eroZ_iff.mp h ((0 : ℤ), (0 : ℤ)) (by decide)
  rwa [add_zero, add_zero] at h0

/-- Erosion is monotone. -/
theorem eroZ_mono {f g : ℤ → ℤ → Bool} (h : ∀ a b, f a b = true → g a b = true)
    (r c : ℤ) : eroZ f r c = true → eroZ g r c = true := by
  intro hf
  rw [eroZ_iff] at hf ⊢
  intro d hd
  exact h _ _ (hf d hd)

/-- Dilation is monotone. -/
theorem dilZ_mono {f g : ℤ → ℤ → Bool} (h : ∀ a b, f a b = true → g a b = true)
    (r c : ℤ) : dilZ f r c = true → dilZ g r c = true := by
  intro hf
  rw [dilZ_iff] at hf ⊢
  obtain ⟨d, hd, hfd⟩ := hf
  exact ⟨d, hd, h _ _ hfd⟩

/-- Opening is anti-extensive (by symmetry of the structuring element). -/
theorem openZ_le (f : ℤ → ℤ → Bool) (r c : ℤ) (h : openZ f r c = true) :
    f r c = true := by
  simp only [openZ] at h
  obtain ⟨d, hd, he⟩ := dilZ_iff.mp h
  have hneg := eroZ_iff.mp he (-d.1, -d.2) (mem_offs_neg d hd)
  have h1 : r + d.1 + -d.1 = r := by ring
  have h2 : c + d.2 + -d.2 = c := by ring
  rwa [h1, h2] at hneg

/-- Closing is extensive (by symmetry of the structuring element). -/
theorem closeZ_ge (f : ℤ → ℤ → Bool) (r c : ℤ) (h : f r c = true) :
    closeZ f r c = true := by
  simp only [closeZ]
  rw [eroZ_iff]
  intro d hd
  rw [dilZ_iff]
  refine ⟨(-d.1, -d.2), mem_offs_neg d hd, ?_⟩
  simp only
  have h1 : r + d.1 + -d.1 = r := by ring
  have h2 : c + d.2 + -d.2 = c := by ring
  rw [h1, h2]
  exact h

/-- Monotone composite: opening. -/
theorem openZ_mono {f g : ℤ → ℤ → Bool} (h : ∀ a b, f a b = true → g a b = true)
    (r c : ℤ) : openZ f r c = true → openZ g r c = true := by
  simp only [openZ]
  exact dilZ_mono (fun a b => eroZ_mono h a b) r c

/-- Monotone composite: closing. -/
theorem closeZ_mono {f g : ℤ → ℤ → Bool} (h : ∀ a b, f a b = true → g a b = true)
    (r c : ℤ) : closeZ f r c = true → closeZ g r c = true := by
  simp only [closeZ]
  exact eroZ_mono (fun a b => dilZ_mono h a b) r c

/-- Monotone composite: open-close filter. -/
theorem ocZ_mono {f g : ℤ → ℤ → Bool} (h : ∀ a b, f a b = true → g a b = true)
    (r c : ℤ) : ocZ f r c = true → ocZ g r c = true := by
  simp only [ocZ]
  exact closeZ_mono (fun a b => openZ_mono h a b) r c

/-- Closing decreases under a second application. -/
theorem closeZ_idem_le (f : ℤ → ℤ → Bool) (r c : ℤ)
    (h : closeZ (closeZ f) r c = true) : closeZ f r c = true := by
  simp only [closeZ] at h ⊢
  rw [eroZ_iff] at h ⊢
  intro d hd
  have hd' := h d hd
  simp only at hd'
  exact openZ_le (dilZ f) _ _ hd'

/-- The open-close filter decreases under a second application. -/
theorem ocZ_idem_le (f : ℤ → ℤ → Bool) (r c : ℤ)
    (h : ocZ (ocZ f) r c = true) : ocZ f r c = true := by
  simp only [ocZ] at h ⊢
  have hmono : ∀ a b : ℤ, openZ (closeZ (openZ f)) a b = true →
      closeZ (openZ f) a b = true :=
    fun a b hab => openZ_le _ a b hab
  exact closeZ_idem_le _ r c (closeZ_mono hmono r c h)

/-- Boolean functions agreeing on truth agree. -/
theorem bool_eq_of_iff {a b : Bool} (h : a = true ↔ b = true) : a = b := by
  cases a <;> cases b <;> simp_all

/-- Grid erosion reads exactly as plane erosion of the guarded mask. -/
theorem get_ero_eq (m : BMask) : (binary_erosion m).get = eroZ m.get := by
  funext r c
  apply bool_eq_of_iff
  constructor
  · intro h
    rw [BMask.get, Bool.and_eq_true] at h
    exact h.2
  · intro h
    rw [BMask.get, Bool.and_eq_true]
    refine ⟨?_, h⟩
    have hc : m.get r c = true := eroZ_center h
    rw [BMask.get, Bool.and_eq_true] at hc
    exact hc.1

/-- Grid opening reads exactly as plane opening of the guarded mask. -/
theorem get_open_eq (m : BMask) : (binary_opening m).get = openZ m.get := by
  funext r c
  apply bool_eq_of_iff
  have hero : (binary_erosion m).get = eroZ m.get := get_ero_eq m
  constructor
  · intro h
    rw [BMask.get, Bool.and_eq_true] at h
    have hcell : dilZ ((binary_erosion m).get) r c = true := h.2
    rw [hero] at hcell
    exact hcell
  · intro h
    rw [BMask.get, Bool.and_eq_true]
    constructor
    · have hf : m.get r c = true := openZ_le m.get r c h
      rw [BMask.get, Bool.and_eq_true] at hf
      exact hf.1
    · show dilZ ((binary_erosion m).get) r c = true
      rw [hero]
      exact h

/-- Erosion distributes over pointwise conjunction. -/
theorem eroZ_and (p q : ℤ → ℤ → Bool) (r c : ℤ) :
    eroZ (fun a b => p a b && q a b) r c = true ↔
      (eroZ p r c = true ∧ eroZ q r c = true) := by
  simp only [eroZ_iff]
  constructor
  · intro h
    constructor
    · intro d hd
      have hdd := h d hd
      simp only [Bool.and_eq_true] at hdd
      exact hdd.1
    · intro d hd
      have hdd := h d hd
      simp only [Bool.and_eq_true] at hdd
      exact hdd.2
  · rintro ⟨h1, h2⟩ d hd
    simp only [Bool.and_eq_true]
    exact ⟨h1 d hd, h2 d hd⟩

/-- Reading the refined mask: the in-grid interior eroded by the element,
conjoined with the plane open-close filter of the guarded mask.  This is
the border effect of scipy `border_value=0`: closing can only keep cells
whose whole neighbourhood lies inside the grid. -/
theorem get_refine_iff (m : BMask) (r c : ℤ) :
    (refiner m).get r c = true ↔
      (eroZ m.inG r c = true ∧ ocZ m.get r c = true) := by
  have hY : (binary_dilation (binary_opening m)).get =
      fun a b => m.inG a b && dilZ (openZ m.get) a b := by
    funext a b
    have hopen : (binary_opening m).get = openZ m.get := get_open_eq m
    show ((binary_dilation (binary_opening m)).inG a b &&
        dilZ ((binary_opening m).get) a b) = (m.inG a b && dilZ (openZ m.get) a b)
    rw [hopen]
    rfl
  show (binary_erosion (binary_dilation (binary_opening m))).get r c = true ↔ _
  rw [get_ero_eq (binary_dilation (binary_opening m)), hY,
    eroZ_and m.inG (dilZ (openZ m.get)) r c]
  exact Iff.rfl

/-- C5 amended: a second application of the mask refiner never adds a true
cell (it can remove more near the grid border, so full idempotence fails;
see the counterexample). -/
theorem C5_refiner_amended (m : BMask) (r c : ℤ)
    (h : (refiner (refiner m)).get r c = true) : (refiner m).get r c = true := by
  obtain ⟨hI, hoc⟩ := (get_refine_iff (refiner m) r c).mp h
  have hI' : eroZ m.inG r c = true := hI
  have hle : ∀ a b : ℤ, (refiner m).get a b = true → ocZ m.get a b = true :=
    fun a b hab => ((get_refine_iff m a b).mp hab).2
  have h1 : ocZ (ocZ m.get) r c = true := ocZ_mono hle r c hoc
  exact (get_refine_iff m r c).mpr ⟨hI', ocZ_idem_le m.get r c h1⟩

/-- Only the center cell survives one refinement of the all-true 3 × 3
mask. -/
theorem refiner_m3_true (a b : ℤ) (h : (refiner m3).get a b = true) :
    a = 1 ∧ b = 1 := by
  have hI := ((get_refine_iff m3 a b).mp h).1
  have h1 := eroZ_iff.mp hI ((-1 : ℤ), (-1 : ℤ)) (by decide)
  have h2 := eroZ_iff.mp hI ((1 : ℤ), (1 : ℤ)) (by decide)
  simp only [m3, BMask.inG, decide_eq_true_eq] at h1 h2
  omega

/-- The erosion of the once-refined 3 × 3 mask is empty. -/
theorem refiner_m3_ero_bot (a b : ℤ) :
    ¬eroZ ((refiner m3).get) a b = true := by
  intro h
  have h1 := eroZ_iff.mp h ((-1 : ℤ), (-1 : ℤ)) (by decide)
  have h2 := eroZ_iff.mp h ((1 : ℤ), (1 : ℤ)) (by decide)
  have e1 := refiner_m3_true _ _ h1
  have e2 := refiner_m3_true _ _ h2
  omega

/-- The twice-refined all-true 3 × 3 mask is false at the center. -/
theorem refiner_refiner_m3 : (refiner (refiner m3)).get 1 1 = false := by
  cases hv : (refiner (refiner m3)).get 1 1 with
  | false => rfl
  | true =>
    exfalso
    have hoc := ((get_refine_iff (refiner m3) 1 1).mp hv).2
    simp only [ocZ, closeZ, openZ] at hoc
    have hcent : dilZ (dilZ (eroZ ((refiner m3).get))) 1 1 = true := eroZ_center hoc
    obtain ⟨d, hd, hdd⟩ := dilZ_iff.mp hcent
    obtain ⟨e, he, hee⟩ := dilZ_iff.mp hdd
    exact refiner_m3_ero_bot _ _ hee

/-- C5 counterexample: refining the all-true 3 × 3 mask twice differs from
refining it once — the single application keeps the center cell, the
second application erases it (scipy border handling). -/
theorem C5_refiner_counterexample :
    (refiner (refiner m3)).get 1 1 ≠ (refiner m3).get 1 1 := by
  have hR : (refiner m3).get 1 1 = true := by decide
  rw [refiner_refiner_m3, hR]
  exact Bool.false_ne_true

/-- The guarded all-true 5 × 5 mask is its own in-grid indicator. -/
theorem m5_get_eq : m5.get = m5.inG := by
  funext a b
  rw [BMask.get]
  show (m5.inG a b && true) = m5.inG a b
  exact Bool.and_true _

/-- Erosion of the 5 × 5 in-grid indicator. -/
theorem ero_inG5 : eroZ m5.inG = boxB 1 3 := by
  funext a b
  apply bool_eq_of_iff
  simp only [eroZ, offs, List.all_cons, List.all_nil, Bool.and_eq_true, Bool.and_true,
    BMask.inG, m5, boxB, decide_eq_true_eq]
  omega

/-- Dilation of the inner 3 × 3 box. -/
theorem dil_b13 : dilZ (boxB 1 3) = boxB 0 4 := by
  funext a b
  apply bool_eq_of_iff
  simp only [dilZ, offs, List.any_cons, List.any_nil, Bool.or_eq_true, Bool.or_false,
    boxB, decide_eq_true_eq]
  omega

/-- Dilation of the 5 × 5 box. -/
theorem dil_b04 : dilZ (boxB 0 4) = boxB (-1) 5 := by
  funext a b
  apply bool_eq_of_iff
  simp only [dilZ, offs, List.any_cons, List.any_nil, Bool.or_eq_true, Bool.or_false,
    boxB, decide_eq_true_eq]
  omega

/-- Erosion of the 7 × 7 box. -/
theorem ero_b15 : eroZ (boxB (-1) 5) = boxB 0 4 := by
  funext a b
  apply bool_eq_of_iff
  simp only [eroZ, offs, List.all_cons, List.all_nil, Bool.and_eq_true, Bool.and_true,
    boxB, decide_eq_true_eq]
  omega

/-- The once-refined all-true 5 × 5 mask is the inner 3 × 3 box. -/
theorem refiner_m5_get : (refiner m5).get = boxB 1 3 := by
  have hoc : ocZ m5.get = boxB 0 4 := by
    rw [ocZ, openZ, closeZ, m5_get_eq, ero_inG5, dil_b13, dil_b04, ero_b15]
  funext a b
  apply bool_eq_of_iff
  rw [get_refine_iff, hoc, ero_inG5]
  simp only [boxB, decide_eq_true_eq]
  omega

/-- Witness for the amended C5: on the all-true 5 × 5 mask the center cell
survives a double refinement, hence also a single one. -/
theorem C5_refiner_amended_witness :
    (refiner (refiner m5)).get 2 2 = true ∧ (refiner m5).get 2 2 = true := by
  have h2 : (refiner (refiner m5)).get 2 2 = true := by
    apply (get_refine_iff (refiner m5) 2 2).mpr
    constructor
    · exact (by decide : eroZ m5.inG 2 2 = true)
    · rw [refiner_m5_get]
      decide
  exact ⟨h2, C5_refiner_amended m5 2 2 h2⟩

/-- Membership in the opaque-row list of the trim step. -/
theorem mem_alphaPosRows {im : Img} {r : ℕ} :
    r ∈ alphaPosRows im ↔ r < im.H ∧ ∃ c, c < im.W ∧ 0 < (im.cell r c).a := by
  rw [alphaPosRows, List.mem_filter, List.mem_range, List.any_eq_true]
  constructor
  · rintro ⟨h1, c, hc, hca⟩
    rw [decide_eq_true_eq] at hca
    exact ⟨h1, c, List.mem_range.mp hc, hca⟩
  · rintro ⟨h1, c, hc, hca⟩
    exact ⟨h1, c, List.mem_range.mpr hc, decide_eq_true hca⟩

/-- Membership in the opaque-column list of the trim step. -/
theorem mem_alphaPosCols {im : Img} {c : ℕ} :
    c ∈ alphaPosCols im ↔ c < im.W ∧ ∃ r, r < im.H ∧ 0 < (im.cell r c).a := by
  rw [alphaPosCols, List.mem_filter, List.mem_range, List.any_eq_true]
  constructor
  · rintro ⟨h1, r, hr, hra⟩
    rw [decide_eq_true_eq] at hra
    exact ⟨h1, r, List.mem_range.mp hr, hra⟩
  · rintro ⟨h1, r, hr, hra⟩
    exact ⟨h1, r, List.mem_range.mpr hr, decide_eq_true hra⟩

/-- The opaque-row list is strictly increasing. -/
theorem alphaPosRows_pairwise (im : Img) : (alphaPosRows im).Pairwise (· < ·) := by
  rw [alphaPosRows]
  exact List.Pairwise.filter _ (List.pairwise_lt_range _)

/-- The opaque-column list is strictly increasing. -/
theorem alphaPosCols_pairwise (im : Img) : (alphaPosCols im).Pairwise (· < ·) := by
  rw [alphaPosCols]
  exact List.Pairwise.filter _ (List.pairwise_lt_range _)

/-- The head of a list belongs to it. -/
theorem mem_of_head?_eq_some {l : List ℕ} {a : ℕ} (h : l.head? = some a) : a ∈ l := by
  cases l with
  | nil => simp at h
  | cons x xs =>
    have hx : x = a := by simpa using h
    subst hx
    exact List.mem_cons_self x xs

/-- The head of a strictly increasing list is a lower bound. -/
theorem head?_le_of_pairwise {l : List ℕ} {a x : ℕ} (hp : l.Pairwise (· < ·))
    (hh : l.head? = some a) (hx : x ∈ l) : a ≤ x := by
  cases l with
  | nil => simp at hh
  | cons y ys =>
    have hya : y = a := by simpa using hh
    subst hya
    rcases List.mem_cons.mp hx with h | h
    · omega
    · have := (List.pairwise_cons.mp hp).1 x h
      omega

/-- The last element of a strictly increasing list is an upper bound. -/
theorem le_getLast?_of_pairwise {l : List ℕ} {a x : ℕ} (hp : l.Pairwise (· < ·))
    (hl : l.getLast? = some a) (hx : x ∈ l) : x ≤ a := by
  induction l with
  | nil => simp at hl
  | cons y ys ih =>
    cases ys with
    | nil =>
      have h1 : y = a := by simpa using hl
      have h2 : x = y := by simpa using hx
      omega
    | cons z zs =>
      rw [List.getLast?_cons_cons] at hl
      have hp' := (List.pairwise_cons.mp hp).2
      rcases List.mem_cons.mp hx with h | h
      · have ha := List.mem_of_getLast?_eq_some hl
        have := (List.pairwise_cons.mp hp).1 a ha
        omega
      · exact ih hp' hl h

/-- Filtering a range whose first index qualifies puts that index first. -/
theorem head?_filter_range {n : ℕ} {p : ℕ → Bool} (hn : 0 < n) (hp : p 0 = true) :
    ((List.range n).filter p).head? = some 0 := by
  obtain ⟨k, rfl⟩ : ∃ k, n = k + 1 := ⟨n - 1, by omega⟩
  rw [List.range_succ_eq_map, List.filter_cons_of_pos hp]
  rfl

/-- Filtering a range whose last index qualifies puts that index last. -/
theorem getLast?_filter_range {n : ℕ} {p : ℕ → Bool} (hn : 0 < n)
    (hp : p (n - 1) = true) :
    ((List.range n).filter p).getLast? = some (n - 1) := by
  obtain ⟨k, rfl⟩ : ∃ k, n = k + 1 := ⟨n - 1, by omega⟩
  simp only [Nat.add_sub_cancel] at hp ⊢
  rw [List.range_succ, List.filter_append, List.filter_cons_of_pos hp, List.filter_nil]
  exact List.getLast?_concat _

/-- A guarded trim keeps a nonempty opaque-row list. -/
theorem rows_ne_nil_of_has {im : Img} (h : hasAlphaPos im = true) :
    alphaPosRows im ≠ [] := by
  intro hnil
  rw [hasAlphaPos, hnil] at h
  simp at h

/-- A guarded trim keeps a nonempty opaque-column list. -/
theorem cols_ne_nil_of_has {im : Img} (h : hasAlphaPos im = true) :
    alphaPosCols im ≠ [] := by
  obtain ⟨r, hr⟩ := List.exists_mem_of_ne_nil _ (rows_ne_nil_of_has h)
  obtain ⟨h1, c, hc, hca⟩ := mem_alphaPosRows.mp hr
  exact List.ne_nil_of_mem (mem_alphaPosCols.mpr ⟨hc, r, h1, hca⟩)

/-- An image whose four border rows and columns each contain an opaque
pixel trims to the full-size crop of itself. -/
theorem trim_stable (g : Img) (hH : 0 < g.H) (hW : 0 < g.W)
    (h0r : ∃ c, c < g.W ∧ 0 < (g.cell 0 c).a)
    (hLr : ∃ c, c < g.W ∧ 0 < (g.cell (g.H - 1) c).a)
    (h0c : ∃ r, r < g.H ∧ 0 < (g.cell r 0).a)
    (hLc : ∃ r, r < g.H ∧ 0 < (g.cell r (g.W - 1)).a) :
    trim g = crop g 0 0 (g.W - 1 + 1) (g.H - 1 + 1) := by
  have hasg : hasAlphaPos g = true := by
    obtain ⟨c, hc, hca⟩ := h0r
    have h0mem : 0 ∈ alphaPosRows g := mem_alphaPosRows.mpr ⟨hH, c, hc, hca⟩
    cases hnil : alphaPosRows g with
    | nil =>
      rw [hnil] at h0mem
      simp at h0mem
    | cons x xs =>
      rw [hasAlphaPos, hnil]
      rfl
  have hrh : (alphaPosRows g).head? = some 0 := by
    rw [alphaPosRows]
    apply head?_filter_range hH
    rw [List.any_eq_true]
    obtain ⟨c, hc, hca⟩ := h0r
    exact ⟨c, List.mem_range.mpr hc, decide_eq_true hca⟩
  have hrl : (alphaPosRows g).getLast? = some (g.H - 1) := by
    rw [alphaPosRows]
    apply getLast?_filter_range hH
    rw [List.any_eq_true]
    obtain ⟨c, hc, hca⟩ := hLr
    exact ⟨c, List.mem_range.mpr hc, decide_eq_true hca⟩
  have hch : (alphaPosCols g).head? = some 0 := by
    rw [alphaPosCols]
    apply head?_filter_range hW
    rw [List.any_eq_true]
    obtain ⟨r, hr, hra⟩ := h0c
    exact ⟨r, List.mem_range.mpr hr, decide_eq_true hra⟩
  have hcl : (alphaPosCols g).getLast? = some (g.W - 1) := by
    rw [alphaPosCols]
    apply getLast?_filter_range hW
    rw [List.any_eq_true]
    obtain ⟨r, hr, hra⟩ := hLc
    exact ⟨r, List.mem_range.mpr hr, decide_eq_true hra⟩
  rw [trim, hasg, hrh, hrl, hch, hcl]
  simp

/-- C9: the trim step is idempotent — trimming an already trimmed image
changes neither the dimensions nor any pixel. -/
theorem C9_trim_idem (im : Img) :
    (trim (trim im)).H = (trim im).H ∧ (trim (trim im)).W = (trim im).W ∧
      ∀ i j : ℕ, (trim (trim im)).cell i j = (trim im).cell i j := by
  cases hhas : hasAlphaPos im with
  | false =>
    have htrim : trim im = im := by
      rw [trim, hhas]
      simp
    rw [htrim, htrim]
    exact ⟨rfl, rfl, fun _ _ => rfl⟩
  | true =>
    obtain ⟨t, ht⟩ := head?_some_of_ne_nil (rows_ne_nil_of_has hhas)
    obtain ⟨b, hb⟩ := getLast?_some_of_ne_nil (rows_ne_nil_of_has hhas)
    obtain ⟨l, hl⟩ := head?_some_of_ne_nil (cols_ne_nil_of_has hhas)
    obtain ⟨rr, hrr⟩ := getLast?_some_of_ne_nil (cols_ne_nil_of_has hhas)
    have htrim : trim im = crop im l t (rr + 1) (b + 1) := by
      rw [trim, hhas, ht, hb, hl, hrr]
      simp
    have hrp := alphaPosRows_pairwise im
    have hcp := alphaPosCols_pairwise im
    have htb : t ≤ b := head?_le_of_pairwise hrp ht (List.mem_of_getLast?_eq_some hb)
    have hlr : l ≤ rr := head?_le_of_pairwise hcp hl (List.mem_of_getLast?_eq_some hrr)
    obtain ⟨htH, c0, hc0W, hc0a⟩ := mem_alphaPosRows.mp (mem_of_head?_eq_some ht)
    obtain ⟨hbH, c1, hc1W, hc1a⟩ :=
      mem_alphaPosRows.mp (List.mem_of_getLast?_eq_some hb)
    obtain ⟨hlW, r0, hr0H, hr0a⟩ := mem_alphaPosCols.mp (mem_of_head?_eq_some hl)
    obtain ⟨hrrW, r1, hr1H, hr1a⟩ :=
      mem_alphaPosCols.mp (List.mem_of_getLast?_eq_some hrr)
    have hc0l : l ≤ c0 :=
      head?_le_of_pairwise hcp hl (mem_alphaPosCols.mpr ⟨hc0W, t, htH, hc0a⟩)
    have hc0r : c0 ≤ rr :=
      le_getLast?_of_pairwise hcp hrr (mem_alphaPosCols.mpr ⟨hc0W, t, htH, hc0a⟩)
    have hc1l : l ≤ c1 :=
      head?_le_of_pairwise hcp hl (mem_alphaPosCols.mpr ⟨hc1W, b, hbH, hc1a⟩)
    have hc1r : c1 ≤ rr :=
      le_getLast?_of_pairwise hcp hrr (mem_alphaPosCols.mpr ⟨hc1W, b, hbH, hc1a⟩)
    have hr0t : t ≤ r0 :=
      head?_le_of_pairwise hrp ht (mem_alphaPosRows.mpr ⟨hr0H, l, hlW, hr0a⟩)
    have hr0b : r0 ≤ b :=
      le_getLast?_of_pairwise hrp hb (mem_alphaPosRows.mpr ⟨hr0H, l, hlW, hr0a⟩)
    have hr1t : t ≤ r1 :=
      head?_le_of_pairwise hrp ht (mem_alphaPosRows.mpr ⟨hr1H, rr, hrrW, hr1a⟩)
    have hr1b : r1 ≤ b :=
      le_getLast?_of_pairwise hrp hb (mem_alphaPosRows.mpr ⟨hr1H, rr, hrrW, hr1a⟩)
    have h0r2 : ∃ c, c < (crop im l t (rr + 1) (b + 1)).W ∧
        0 < ((crop im l t (rr + 1) (b + 1)).cell 0 c).a := by
      refine ⟨c0 - l, ?_, ?_⟩
      · show c0 - l < rr + 1 - l
        omega
      · show 0 < (im.cell (t + 0) (l + (c0 - l))).a
        have h2 : l + (c0 - l) = c0 := by omega
        rw [h2]
        simpa using hc0a
    have hLr2 : ∃ c, c < (crop im l t (rr + 1) (b + 1)).W ∧
        0 < ((crop im l t (rr + 1) (b + 1)).cell
          ((crop im l t (rr + 1) (b + 1)).H - 1) c).a := by
      refine ⟨c1 - l, ?_, ?_⟩
      · show c1 - l < rr + 1 - l
        omega
      · show 0 < (im.cell (t + (b + 1 - t - 1)) (l + (c1 - l))).a
        have e1 : t + (b + 1 - t - 1) = b := by omega
        have e2 : l + (c1 - l) = c1 := by omega
        rw [e1, e2]
        exact hc1a
    have h0c2 : ∃ r, r < (crop im l t (rr + 1) (b + 1)).H ∧
        0 < ((crop im l t (rr + 1) (b + 1)).cell r 0).a := by
      refine ⟨r0 - t, ?_, ?_⟩
      · show r0 - t < b + 1 - t
        omega
      · show 0 < (im.cell (t + (r0 - t)) (l + 0)).a
        have e1 : t + (r0 - t) = r0 := by omega
        rw [e1]
        simpa using hr0a
    have hLc2 : ∃ r, r < (crop im l t (rr + 1) (b + 1)).H ∧
        0 < ((crop im l t (rr + 1) (b + 1)).cell r
          ((crop im l t (rr + 1) (b + 1)).W - 1)).a := by
      refine ⟨r1 - t, ?_, ?_⟩
      · show r1 - t < b + 1 - t
        omega
      · show 0 < (im.cell (t + (r1 - t)) (l + (rr + 1 - l - 1))).a
        have e1 : t + (r1 - t) = r1 := by omega
        have e2 : l + (rr + 1 - l - 1) = rr := by omega
        rw [e1, e2]
        exact hr1a
    have htrim2 : trim (crop im l t (rr + 1) (b + 1)) =
        crop (crop im l t (rr + 1) (b + 1)) 0 0
          ((crop im l t (rr + 1) (b + 1)).W - 1 + 1)
          ((crop im l t (rr + 1) (b + 1)).H - 1 + 1) :=
      trim_stable _ (by show 0 < b + 1 - t; omega) (by show 0 < rr + 1 - l; omega)
        h0r2 hLr2 h0c2 hLc2
    refine ⟨?_, ?_, ?_⟩
    · rw [htrim, htrim2]
      show (b + 1 - t - 1 + 1) - 0 = (b + 1) - t
      omega
    · rw [htrim, htrim2]
      show (rr + 1 - l - 1 + 1) - 0 = (rr + 1) - l
      omega
    · intro i j
      rw [htrim, htrim2]
      show (crop im l t (rr + 1) (b + 1)).cell (0 + i) (0 + j) =
        (crop im l t (rr + 1) (b + 1)).cell i j
      rw [Nat.zero_add, Nat.zero_add]

end Logo
